import Mathlib

/-
Shallow embedding of `examples/latent_ode.py` (a Latent ODE: a variational
autoencoder whose decoder integrates a learned vector field).

Conventions of the embedding:
* Machine floats become real numbers (`ℝ`); vectors become `List ℝ` and
  arrays of vectors become `List (List ℝ)`.
* PRNG keys of the splittable generator become lists of naturals: the i-th
  child of key `k` obtained by splitting is `k ++ [i]`.  This is modelled
  from the spec, which promises only a splittable deterministic generator
  whose `split(key, n)` yields `n` independent child generators.
* External neural-network modules that the example merely calls
  (the gated recurrent cell `eqx.nn.GRUCell` and the feed-forward network
  `eqx.nn.MLP`) are abstract function fields of the model record: the spec
  delegates them to an external module library and none of their code is in
  this repository's sources.
* The external adaptive ODE solver (`diffrax.diffeqsolve`) is modelled from
  the spec: `solve(field, t0, t1, y0, dt0, outputTimes)` returns one state
  per requested output time; the internal adaptive stepping is abstracted
  into a per-time state function `odeState`.
* The two linear layers (`hidden_to_latent`, `hidden_to_data`) are embedded
  concretely as matrix/bias pairs, because the claims depend on their shape
  behaviour (splitting a `2*latent_size` projection, projecting to
  `data_size`).
-/

namespace LatentOde

/-- PRNG keys of the splittable deterministic generator, as split paths
from the root key.  Modelled from the spec: the randomness source is a
splittable deterministic pseudo-random generator. -/
abbrev Key : Type := List ℕ

/-- Modelled from the spec: `split(key, n)` yields `n` independent child
generators; the i-th child of `k` is `k ++ [i]`. -/
def keySplit (k : Key) (n : ℕ) : List Key :=
  (List.range n).map (fun i => k ++ [i])

/-! The PRNG-key trace of one run of `main`

`main` splits the root key into five children
`data_key, model_key, loader_key, train_key, sample_key` (line 253).
A key is *consumed* when it is passed to a sampling primitive
(`normal`, `uniform`, `permutation`, or a layer initialiser); keys that are
only ever split are not consumed.  The lists below record, per subsystem,
every key value consumed during a run with `steps` training steps,
`save_every` plotting period, `E` dataloader epochs touched and batch size
`B`.  Order of events is irrelevant to the claims, which are about
duplicate consumption. -/

/-- Key `data_key`, first child of the root key (line 253). -/
def dataKey : Key := [0]

/-- Key `model_key`, second child of the root key (line 253). -/
def modelKey : Key := [1]

/-- Key `loader_key` after `e` epochs: the dataloader consumes its current key
for the epoch's permutation, then replaces it by its 0-th child
(lines 227-228). -/
def loaderKeyAt (e : ℕ) : Key := 2 :: List.replicate e 0

/-- Key `train_key` at step `s`: the loop replaces it by its 0-th child after
every step (line 292). -/
def trainKeyAt (s : ℕ) : Key := 3 :: List.replicate s 0

/-- Key `sample_key`, fifth child of the root key (line 253); it is never
replaced. -/
def sampleKey : Key := [4]

/-- Keys consumed by `get_data` (line 194): the three children of
`data_key` feed `normal` and two `uniform` draws. -/
def getDataConsumed : List Key := keySplit dataKey 3

/-- Keys consumed by model construction (line 107): the five children of
`model_key` feed the five layer initialisers. -/
def modelInitConsumed : List Key := keySplit modelKey 5

/-- Keys consumed by the dataloader over `E` epochs: one permutation draw
per epoch (line 227). -/
def loaderConsumed (E : ℕ) : List Key := (List.range E).map loaderKeyAt

/-- Keys consumed by training over `steps` steps with batch size `B`: at
step `s` the loss function splits the current `train_key` into `B`
children, each consumed by the reparameterisation noise draw
(lines 269-270, 143). -/
def trainConsumed (steps B : ℕ) : List Key :=
  (List.range steps).flatMap (fun s => keySplit (trainKeyAt s) B)

/-- The steps at which the plotting branch runs: `step % save_every == 0`
or `step == steps - 1` (line 297). -/
def plotSteps (steps save_every : ℕ) : List ℕ :=
  (List.range steps).filter (fun s => s % save_every == 0 || s == steps - 1)

/-- Keys consumed by the plotting branch: `sample_key` is passed to
`model.sample` at every plotting step and never replaced (line 302). -/
def sampleConsumed (steps save_every : ℕ) : List Key :=
  (plotSteps steps save_every).map (fun _ => sampleKey)

/-- All keys consumed in a run, the plotting branch excepted. -/
def nonSampleConsumed (steps E B : ℕ) : List Key :=
  getDataConsumed ++ modelInitConsumed ++ loaderConsumed E ++ trainConsumed steps B

/-- All keys consumed in a run. -/
def consumedKeys (steps save_every E B : ℕ) : List Key :=
  nonSampleConsumed steps E B ++ sampleConsumed steps save_every

/-- Tag used to discriminate which subsystem a consumed key belongs to:
the first entry of its split path. -/
def keyTag (k : Key) : ℕ := k.headD 9

/-- The quantity `num_plots` as computed at lines 279-281:
`1 + (steps - 1) // save_every`, plus one more when
`(steps - 1) % save_every != 0`. -/
def numPlots (steps save_every : ℕ) : ℕ :=
  let base := 1 + (steps - 1) / save_every
  if (steps - 1) % save_every ≠ 0 then base + 1 else base

/-! The dataloader (lines 222-235)

Each epoch draws a fresh permutation `perm` of the dataset indices and
yields the slices `perm[0:B], perm[B:2B], ...` while the slice start is
below the dataset size.  `chunksOf B l` is that slicing; the fuel argument
of `chunksAux` is only a termination device (with `B ≥ 1` the fuel
`l.length` is never exhausted).  For `B = 0` the Python generator would
loop forever yielding empty slices; the claims all assume `B ≥ 1`. -/

/-- Fuelled slicing of a list into consecutive chunks of size `B`. -/
def chunksAux (B : ℕ) : ℕ → List α → List (List α)
  | _, [] => []
  | 0, _ :: _ => []
  | fuel + 1, a :: l => (a :: l).take B :: chunksAux B fuel ((a :: l).drop B)

/-- The batches of one dataloader epoch built from the epoch's permuted
index list `l` (lines 229-235). -/
def chunksOf (B : ℕ) (l : List α) : List (List α) := chunksAux B l.length l

/-- Number of batches a dataloader epoch yields for a dataset of size `N`
and batch size `B` (the last, possibly ragged, batch included). -/
def numBatches (N B : ℕ) : ℕ := (N + B - 1) / B

/-- The dataloader as an unbounded stream of index batches: epoch
`i / numBatches N B` is permuted by `permAt`, and the batch is chunk
`i % numBatches N B` of it.  `permAt e` abstracts the external
`jrandom.permutation` draw of epoch `e`. -/
def dataStream (permAt : ℕ → List ℕ) (N B i : ℕ) : List ℕ :=
  (chunksOf B (permAt (i / numBatches N B))).getD (i % numBatches N B) []

/-- The training loop's iteration trace: `zip(range(steps), dataloader(...))`
at lines 285-287 pairs each step index below `steps` with the next batch of
the unbounded stream. -/
def trainingRun (steps : ℕ) (stream : ℕ → α) : List (ℕ × α) :=
  (List.range steps).map (fun s => (s, stream s))

/-! The model (class `LatentODE`, lines 91-183) -/

/-- A linear layer: weight matrix (list of rows) and bias. -/
structure Linear where
  weight : List (List ℝ)
  bias : List ℝ

/-- Dot product of two vectors (truncating at the shorter). -/
def dot (xs ys : List ℝ) : ℝ := (List.zipWith (fun a b => a * b) xs ys).sum

/-- Apply a linear layer: one output coordinate per weight row, that row's
dot product with the input plus the row's bias. -/
def linApply (f : Linear) (x : List ℝ) : List ℝ :=
  List.zipWith (fun row b => dot row x + b) f.weight f.bias

/-- The Latent ODE model.  `rnn_cell` and `latent_to_hidden` are the
external gated recurrent cell and feed-forward network, abstract here;
`odeState` and `normalDraw` are modelled from the spec (external adaptive
ODE solver and standard-normal draw of the external PRNG). -/
structure LatentODEModel where
  rnn_cell : List ℝ → List ℝ → List ℝ
  hidden_to_latent : Linear
  latent_to_hidden : List ℝ → List ℝ
  hidden_to_data : Linear
  odeState : ℝ → ℝ → List ℝ → ℝ → ℝ → List ℝ
  normalDraw : Key → ℕ → List ℝ
  hidden_size : ℕ
  latent_size : ℕ

/-! Encoder (`_latent`, lines 134-144) -/

/-- Per-step encoder inputs: each observation with its time scalar
prepended (line 136, `jnp.concatenate([ts[:, None], ys], axis=1)`). -/
def encInput (ts : List ℝ) (ys : List (List ℝ)) : List (List ℝ) :=
  List.zipWith (fun t y => t :: y) ts ys

/-- The encoder's final hidden state: fold the gated recurrent cell over
the per-step inputs in reverse chronological order, from the zero hidden
state (lines 137-139). -/
def encHidden (m : LatentODEModel) (ts : List ℝ) (ys : List (List ℝ)) : List ℝ :=
  ((encInput ts ys).reverse).foldl (fun h d => m.rnn_cell d h)
    (List.replicate m.hidden_size 0)

/-- The `2*latent_size` linear projection of the encoder summary
(line 140). -/
def latentContext (m : LatentODEModel) (ts : List ℝ) (ys : List (List ℝ)) : List ℝ :=
  linApply m.hidden_to_latent (encHidden m ts ys)

/-- Posterior mean: the first `latent_size` components of the projection
(line 141). -/
def latentMean (m : LatentODEModel) (ts : List ℝ) (ys : List (List ℝ)) : List ℝ :=
  (latentContext m ts ys).take m.latent_size

/-- Posterior log-standard-deviation: the last `latent_size` components of
the projection (line 141). -/
def latentLogstd (m : LatentODEModel) (ts : List ℝ) (ys : List (List ℝ)) : List ℝ :=
  (latentContext m ts ys).drop m.latent_size

/-- Posterior standard deviation `exp(logstd)` (line 142). -/
noncomputable def latentStd (m : LatentODEModel) (ts : List ℝ) (ys : List (List ℝ)) : List ℝ :=
  (latentLogstd m ts ys).map Real.exp

/-- Reparameterised latent draw from an explicit noise vector:
`mean + noise * std`, elementwise (line 143). -/
noncomputable def latentFromNoise (m : LatentODEModel) (ts : List ℝ) (ys : List (List ℝ))
    (noise : List ℝ) : List ℝ :=
  List.zipWith (fun a b => a + b) (latentMean m ts ys)
    (List.zipWith (fun a b => a * b) noise (latentStd m ts ys))

/-- The latent sample returned by `_latent`: the noise is a standard-normal
draw of shape `(latent_size,)` from the supplied key (line 143). -/
noncomputable def latentSample (m : LatentODEModel) (ts : List ℝ) (ys : List (List ℝ))
    (key : Key) : List ℝ :=
  latentFromNoise m ts ys (m.normalDraw key m.latent_size)

/-! Decoder (`_sample`, lines 149-159) -/

/-- Modelled from the spec: the external adaptive solver, asked to save at
the times `ts`, returns one solved state per requested output time
(`SaveAt(ts=ts)`, line 157). -/
def odeSolve (m : LatentODEModel) (t0 t1 : ℝ) (y0 : List ℝ) (dt0 : ℝ)
    (ts : List ℝ) : List (List ℝ) :=
  ts.map (m.odeState t0 t1 y0 dt0)

/-- The decoder path `_sample`: map the latent through the feed-forward
network to the initial hidden state, solve from `ts[0]` to `ts[-1]` with
initial step hint `0.4` saving at `ts`, then project every solved state to
data space (lines 149-159). -/
def sampleFn (m : LatentODEModel) (ts : List ℝ) (latent : List ℝ) : List (List ℝ) :=
  (odeSolve m (ts.headD 0) (ts.getLastD 0) (m.latent_to_hidden latent) 0.4 ts).map
    (linApply m.hidden_to_data)

/-! Loss (`_loss`, lines 161-168) -/

/-- Reconstruction term: `0.5 * jnp.sum((ys - pred_ys) ** 2)` (line 165),
the sum running over every entry of the trajectory. -/
def lossRecon (ys pred : List (List ℝ)) : ℝ :=
  0.5 * (List.zipWith (fun r p => (List.zipWith (fun a b => (a - b) ^ 2) r p).sum) ys pred).sum

/-- Variational term:
`0.5 * jnp.sum(mean ** 2 + std ** 2 - 2 * jnp.log(std) - 1)` (line 167). -/
noncomputable def lossVar (mean std : List ℝ) : ℝ :=
  0.5 * (List.zipWith (fun mu s => mu ^ 2 + s ^ 2 - 2 * Real.log s - 1) mean std).sum

/-- Function `_loss`: reconstruction plus variational term (line 168). -/
noncomputable def lossFn (ys pred : List (List ℝ)) (mean std : List ℝ) : ℝ :=
  lossRecon ys pred + lossVar mean std

/-! Training path (`train`, lines 173-176) and the batched loss
(lines 266-271) -/

/-- Method `train`: encode, draw a latent, decode at the trajectory's own times,
and score (lines 173-176). -/
noncomputable def trainFn (m : LatentODEModel) (ts : List ℝ) (ys : List (List ℝ))
    (key : Key) : ℝ :=
  lossFn ys (sampleFn m ts (latentSample m ts ys key)) (latentMean m ts ys)
    (latentStd m ts ys)

/-- The per-element losses of a list of ((times, observations), key)
pairs: `jax.vmap(model.train)` applies `train` to positionally paired
batch elements and keys (line 270). -/
noncomputable def pairLosses (m : LatentODEModel)
    (l : List ((List ℝ × List (List ℝ)) × Key)) : List ℝ :=
  l.map (fun ek => trainFn m ek.1.1 ek.1.2 ek.2)

/-- The scalar minibatch loss of a list of element/key pairs:
`jnp.mean(loss)` (line 271). -/
noncomputable def pairedLoss (m : LatentODEModel)
    (l : List ((List ℝ × List (List ℝ)) × Key)) : ℝ :=
  (pairLosses m l).sum / (pairLosses m l).length

/-- The vectorized loss of lines 266-271: split the step key into one key
per batch slot, pair slots with keys positionally, average the
per-element losses. -/
noncomputable def batchLoss (m : LatentODEModel) (tsB : List (List ℝ))
    (ysB : List (List (List ℝ))) (key : Key) : ℝ :=
  pairedLoss m ((tsB.zip ysB).zip (keySplit key tsB.length))

/-! A concrete model instance

Used to evaluate the embedding at concrete inputs: the abstract external
modules are instantiated with admissible functions (the recurrent cell
keeps its hidden state, the feed-forward network is the identity, the
solver holds the initial state, the normal draw is a deterministic
function of the key's split path as the spec permits). -/

/-- A concrete instance: `hidden_size = latent_size = data_size = 1`,
`hidden_to_latent` the zero map into `ℝ²`, `hidden_to_data` the identity
row. -/
noncomputable def toyModel : LatentODEModel where
  rnn_cell := fun _ h => h
  hidden_to_latent := ⟨[[0], [0]], [0, 0]⟩
  latent_to_hidden := fun v => v
  hidden_to_data := ⟨[[1]], [0]⟩
  odeState := fun _ _ y0 _ _ => y0
  normalDraw := fun k n => List.replicate n ((k.sum + k.length : ℕ) : ℝ)
  hidden_size := 1
  latent_size := 1

/-! Helper lemmas about the epoch slicing -/

theorem chunksAux_eq_of_le {α : Type _} {B : ℕ} (hB : 1 ≤ B) :
    ∀ (n : ℕ) (l : List α), l.length ≤ n → ∀ (m : ℕ), l.length ≤ m →
      chunksAux B n l = chunksAux B m l := by
  intro n
  induction n with
  | zero =>
    intro l hl m _
    have hnil : l = [] := List.eq_nil_of_length_eq_zero (Nat.le_zero.mp hl)
    subst hnil
    cases m <;> rfl
  | succ n ih =>
    intro l hl m hm
    cases l with
    | nil => cases m <;> rfl
    | cons a l' =>
      cases m with
      | zero => simp at hm
      | succ m' =>
        show (a :: l').take B :: chunksAux B n ((a :: l').drop B)
            = (a :: l').take B :: chunksAux B m' ((a :: l').drop B)
        have hd : ((a :: l').drop B).length ≤ l'.length := by
          simp only [List.length_drop, List.length_cons]
          omega
        have hl' : l'.length ≤ n := by
          simp only [List.length_cons] at hl
          omega
        have hm' : l'.length ≤ m' := by
          simp only [List.length_cons] at hm
          omega
        rw [ih _ (le_trans hd hl') _ (le_trans hd hm')]

theorem chunksOf_cons_eq {α : Type _} {B : ℕ} (hB : 1 ≤ B) (l : List α) (hl : l ≠ []) :
    chunksOf B l = l.take B :: chunksOf B (l.drop B) := by
  obtain ⟨a, l', rfl⟩ := List.exists_cons_of_ne_nil hl
  show chunksAux B (l'.length + 1) (a :: l')
      = (a :: l').take B :: chunksOf B ((a :: l').drop B)
  have hstep : chunksAux B (l'.length + 1) (a :: l')
      = (a :: l').take B :: chunksAux B l'.length ((a :: l').drop B) := rfl
  rw [hstep]
  congr 1
  exact chunksAux_eq_of_le hB l'.length _ (by simp; omega) _ le_rfl

theorem chunksOf_flatten {α : Type _} {B : ℕ} (hB : 1 ≤ B) :
    ∀ (n : ℕ) (l : List α), l.length ≤ n → (chunksOf B l).flatten = l := by
  intro n
  induction n with
  | zero =>
    intro l hl
    have hnil : l = [] := List.eq_nil_of_length_eq_zero (Nat.le_zero.mp hl)
    subst hnil
    rfl
  | succ n ih =>
    intro l hl
    rcases eq_or_ne l [] with rfl | hne
    · rfl
    · rw [chunksOf_cons_eq hB l hne, List.flatten_cons,
        ih (l.drop B) (by simp only [List.length_drop]; omega),
        List.take_append_drop]

theorem chunksOf_length_le {α : Type _} {B : ℕ} (hB : 1 ≤ B) :
    ∀ (n : ℕ) (l : List α), l.length ≤ n → ∀ b ∈ chunksOf B l, b.length ≤ B := by
  intro n
  induction n with
  | zero =>
    intro l hl b hb
    have hnil : l = [] := List.eq_nil_of_length_eq_zero (Nat.le_zero.mp hl)
    subst hnil
    simp [chunksOf, chunksAux] at hb
  | succ n ih =>
    intro l hl b hb
    rcases eq_or_ne l [] with rfl | hne
    · simp [chunksOf, chunksAux] at hb
    · rw [chunksOf_cons_eq hB l hne] at hb
      rcases List.mem_cons.mp hb with rfl | hb'
      · simp
      · exact ih (l.drop B) (by simp only [List.length_drop]; omega) b hb'

theorem chunksOf_ne_nil {α : Type _} {B : ℕ} (hB : 1 ≤ B) (l : List α) (hl : l ≠ []) :
    chunksOf B l ≠ [] := by
  rw [chunksOf_cons_eq hB l hl]
  exact List.cons_ne_nil _ _

theorem chunksOf_dropLast_length {α : Type _} {B : ℕ} (hB : 1 ≤ B) :
    ∀ (n : ℕ) (l : List α), l.length ≤ n →
      ∀ b ∈ (chunksOf B l).dropLast, b.length = B := by
  intro n
  induction n with
  | zero =>
    intro l hl b hb
    have hnil : l = [] := List.eq_nil_of_length_eq_zero (Nat.le_zero.mp hl)
    subst hnil
    simp [chunksOf, chunksAux] at hb
  | succ n ih =>
    intro l hl b hb
    rcases eq_or_ne l [] with rfl | hne
    · simp [chunksOf, chunksAux] at hb
    · rw [chunksOf_cons_eq hB l hne] at hb
      rcases eq_or_ne (l.drop B) [] with hdrop | hdrop
      · rw [hdrop] at hb
        simp [chunksOf, chunksAux] at hb
      · have htail : chunksOf B (l.drop B) ≠ [] := chunksOf_ne_nil hB _ hdrop
        rw [List.dropLast_cons_of_ne_nil htail] at hb
        rcases List.mem_cons.mp hb with rfl | hb'
        · have hlt : B < l.length := by
            by_contra hcon
            exact hdrop (List.drop_eq_nil_of_le (Nat.le_of_not_lt hcon))
          simp [Nat.min_eq_left (Nat.le_of_lt hlt)]
        · exact ih (l.drop B) (by simp only [List.length_drop]; omega) b hb'

theorem chunksOf_dvd_length {α : Type _} {B : ℕ} (hB : 1 ≤ B) :
    ∀ (n : ℕ) (l : List α), l.length ≤ n → B ∣ l.length →
      ∀ b ∈ chunksOf B l, b.length = B := by
  intro n
  induction n with
  | zero =>
    intro l hl _ b hb
    have hnil : l = [] := List.eq_nil_of_length_eq_zero (Nat.le_zero.mp hl)
    subst hnil
    simp [chunksOf, chunksAux] at hb
  | succ n ih =>
    intro l hl hdvd b hb
    rcases eq_or_ne l [] with rfl | hne
    · simp [chunksOf, chunksAux] at hb
    · rw [chunksOf_cons_eq hB l hne] at hb
      have hpos : 1 ≤ l.length := List.length_pos.mpr hne
      have hBle : B ≤ l.length := Nat.le_of_dvd (by omega) hdvd
      rcases List.mem_cons.mp hb with rfl | hb'
      · simp [Nat.min_eq_left hBle]
      · exact ih (l.drop B) (by simp only [List.length_drop]; omega)
          (by simpa only [List.length_drop] using Nat.dvd_sub' hdvd dvd_rfl) b hb'

theorem getLastD_irrel {α : Type _} (L : List α) (h : L ≠ []) (d d' : α) :
    L.getLastD d = L.getLastD d' := by
  rw [List.getLastD_eq_getLast?, List.getLastD_eq_getLast?]
  cases hx : L.getLast? with
  | none => exact absurd (List.getLast?_eq_none_iff.mp hx) h
  | some x => rfl

theorem chunksOf_getLastD_length {α : Type _} {B : ℕ} (hB : 1 ≤ B) :
    ∀ (n : ℕ) (l : List α), l.length ≤ n → ¬ B ∣ l.length →
      ((chunksOf B l).getLastD []).length = l.length % B := by
  intro n
  induction n with
  | zero =>
    intro l hl hdvd
    have hnil : l = [] := List.eq_nil_of_length_eq_zero (Nat.le_zero.mp hl)
    subst hnil
    exact absurd (dvd_zero B) hdvd
  | succ n ih =>
    intro l hl hdvd
    have hne : l ≠ [] := by
      intro hcon
      exact hdvd (by simp [hcon])
    rw [chunksOf_cons_eq hB l hne]
    rcases eq_or_ne (l.drop B) [] with hdrop | hdrop
    · have hle : l.length ≤ B := by
        by_contra hcon
        have hlen := congrArg List.length hdrop
        simp only [List.length_drop, List.length_nil] at hlen
        omega
      have hlt : l.length < B := by
        rcases Nat.lt_or_ge l.length B with h | h
        · exact h
        · exact absurd (Nat.le_antisymm hle h ▸ dvd_rfl) hdvd
      rw [hdrop]
      simp [chunksOf, chunksAux, Nat.mod_eq_of_lt hlt, Nat.min_eq_right (Nat.le_of_lt hlt)]
    · have htail : chunksOf B (l.drop B) ≠ [] := chunksOf_ne_nil hB _ hdrop
      have hBlt : B < l.length := by
        by_contra hcon
        exact hdrop (List.drop_eq_nil_of_le (Nat.le_of_not_lt hcon))
      have hdvd' : ¬ B ∣ (l.drop B).length := by
        simp only [List.length_drop]
        intro hcon
        have hall : B ∣ l.length := by
          have hadd := Nat.dvd_add hcon (dvd_refl B)
          rwa [Nat.sub_add_cancel (Nat.le_of_lt hBlt)] at hadd
        exact hdvd hall
      have hrec := ih (l.drop B) (by simp only [List.length_drop]; omega) hdvd'
      have hmod : (l.drop B).length % B = l.length % B := by
        simp only [List.length_drop]
        conv_rhs => rw [show l.length = l.length - B + B from
          (Nat.sub_add_cancel (Nat.le_of_lt hBlt)).symm]
        rw [Nat.add_mod_right]
      rw [List.getLastD_cons, getLastD_irrel _ htail _ [], hrec, hmod]

theorem countP_mem_of_nodup_flatten {α : Type _} [DecidableEq α] :
    ∀ (L : List (List α)) (i : α), (L.flatten).Nodup → i ∈ L.flatten →
      L.countP (fun b => decide (i ∈ b)) = 1 := by
  intro L
  induction L with
  | nil =>
    intro i _ hi
    simp at hi
  | cons b L ih =>
    intro i hnd hi
    rw [List.flatten_cons] at hnd hi
    rw [List.nodup_append] at hnd
    obtain ⟨hb, hL, hdisj⟩ := hnd
    by_cases hib : i ∈ b
    · rw [List.countP_cons_of_pos _ _ (by simpa using hib)]
      have hzero : L.countP (fun c => decide (i ∈ c)) = 0 := by
        rw [List.countP_eq_zero]
        intro c hc
        simp only [decide_eq_true_eq]
        intro hic
        exact hdisj hib (List.mem_flatten.mpr ⟨c, hc, hic⟩)
      rw [hzero]
    · rw [List.countP_cons_of_neg _ _ (by simpa using hib)]
      have hiL : i ∈ L.flatten := by
        rcases List.mem_append.mp hi with h | h
        · exact absurd h hib
        · exact h
      exact ih i hL hiL

/-- C9: within each dataloader epoch over a permuted index list `perm` of
the `N` dataset indices, every index appears in exactly one yielded batch;
each batch has at most `batch_size` elements; every batch except possibly
the last has exactly `batch_size`; when `batch_size` divides `N` every
batch (the last included) has exactly `batch_size`; and when it does not,
the last batch has the remainder `N % batch_size` elements. -/
theorem dataloader_epoch_partition (N B : ℕ) (perm : List ℕ) (hB : 1 ≤ B)
    (hperm : perm.Perm (List.range N)) :
    (chunksOf B perm).flatten.Perm (List.range N)
      ∧ (∀ i, i < N → (chunksOf B perm).countP (fun b => decide (i ∈ b)) = 1)
      ∧ (∀ b ∈ chunksOf B perm, b.length ≤ B)
      ∧ (∀ b ∈ (chunksOf B perm).dropLast, b.length = B)
      ∧ (B ∣ N → ∀ b ∈ chunksOf B perm, b.length = B)
      ∧ (¬ B ∣ N → ((chunksOf B perm).getLastD []).length = N % B) := by
  have hlen : perm.length = N := by
    simpa using hperm.length_eq
  have hfl : (chunksOf B perm).flatten = perm := chunksOf_flatten hB perm.length perm le_rfl
  refine ⟨by rw [hfl]; exact hperm, ?_, chunksOf_length_le hB perm.length perm le_rfl,
    chunksOf_dropLast_length hB perm.length perm le_rfl, ?_, ?_⟩
  · intro i hi
    apply countP_mem_of_nodup_flatten
    · rw [hfl]
      exact hperm.nodup_iff.mpr (List.nodup_range N)
    · rw [hfl]
      exact hperm.mem_iff.mpr (List.mem_range.mpr hi)
  · intro hdvd
    exact chunksOf_dvd_length hB perm.length perm le_rfl (hlen ▸ hdvd)
  · intro hdvd
    have hres := chunksOf_getLastD_length hB perm.length perm le_rfl
      (by rw [hlen]; exact hdvd)
    rw [hlen] at hres
    exact hres

theorem dataloader_epoch_partition_witness :
    (1 ≤ 2 ∧ ([2, 0, 1] : List ℕ).Perm (List.range 3))
      ∧ ((chunksOf 2 ([2, 0, 1] : List ℕ)).flatten.Perm (List.range 3)
        ∧ (∀ i, i < 3 → (chunksOf 2 ([2, 0, 1] : List ℕ)).countP (fun b => decide (i ∈ b)) = 1)
        ∧ (∀ b ∈ chunksOf 2 ([2, 0, 1] : List ℕ), b.length ≤ 2)
        ∧ (∀ b ∈ (chunksOf 2 ([2, 0, 1] : List ℕ)).dropLast, b.length = 2)
        ∧ (2 ∣ 3 → ∀ b ∈ chunksOf 2 ([2, 0, 1] : List ℕ), b.length = 2)
        ∧ (¬ 2 ∣ 3 → ((chunksOf 2 ([2, 0, 1] : List ℕ)).getLastD []).length = 3 % 2)) :=
  ⟨⟨by decide, by decide⟩, dataloader_epoch_partition 3 2 [2, 0, 1] (by decide) (by decide)⟩

/-! Counting the plotting steps (claim C10) -/

theorem length_filter_mod_eq_zero (k : ℕ) (hk : 1 ≤ k) :
    ∀ n : ℕ, ((List.range n).filter (fun s => s % k == 0)).length
      = if n = 0 then 0 else (n - 1) / k + 1 := by
  intro n
  induction n with
  | zero => rfl
  | succ n ih =>
    rw [List.range_succ, List.filter_append, List.length_append, ih]
    have hone : (List.filter (fun s => s % k == 0) [n]).length
        = if n % k = 0 then 1 else 0 := by
      by_cases h : n % k = 0 <;> simp [h]
    rw [hone]
    rcases Nat.eq_zero_or_pos n with rfl | hn
    · simp
    · obtain ⟨m, rfl⟩ := Nat.exists_eq_succ_of_ne_zero (Nat.pos_iff_ne_zero.mp hn)
      simp only [Nat.succ_eq_add_one]
      have hsd := Nat.succ_div m k
      rw [if_neg (Nat.succ_ne_zero m), if_neg (Nat.succ_ne_zero (m + 1))]
      simp only [Nat.add_sub_cancel]
      by_cases h : k ∣ m + 1
      · rw [if_pos h] at hsd
        have hmod : (m + 1) % k = 0 := Nat.mod_eq_zero_of_dvd h
        rw [if_pos hmod]
        omega
      · rw [if_neg h] at hsd
        have hmod : (m + 1) % k ≠ 0 := fun hc => h (Nat.dvd_of_mod_eq_zero hc)
        rw [if_neg hmod]
        omega

/-- C10: the number of training-loop iterations at which the
plotting/sampling branch runs (steps with `step % save_every == 0`,
together with the final step `steps - 1`) equals the preallocated number
of subplot axes `num_plots`, so the axes iterator is never exhausted. -/
theorem plot_axes_count (steps save_every : ℕ) (hs : 1 ≤ steps)
    (hk : 1 ≤ save_every) :
    (plotSteps steps save_every).length = numPlots steps save_every := by
  obtain ⟨m, rfl⟩ := Nat.exists_eq_succ_of_ne_zero (by omega : steps ≠ 0)
  simp only [Nat.succ_eq_add_one]
  rw [plotSteps, List.range_succ, List.filter_append]
  have hlast : List.filter (fun s => s % save_every == 0 || s == m + 1 - 1) [m] = [m] := by
    simp
  have hfront : List.filter (fun s => s % save_every == 0 || s == m + 1 - 1) (List.range m)
      = List.filter (fun s => s % save_every == 0) (List.range m) := by
    apply List.filter_congr
    intro x hx
    have hxm : x ≠ m := Nat.ne_of_lt (List.mem_range.mp hx)
    simp [hxm]
  rw [hfront, hlast, List.length_append,
    length_filter_mod_eq_zero save_every hk m]
  rw [numPlots]
  simp only [Nat.add_sub_cancel, List.length_cons, List.length_nil]
  rcases Nat.eq_zero_or_pos m with rfl | hm
  · simp
  · obtain ⟨j, rfl⟩ := Nat.exists_eq_succ_of_ne_zero (Nat.pos_iff_ne_zero.mp hm)
    simp only [Nat.succ_eq_add_one]
    have hsd := Nat.succ_div j save_every
    rw [if_neg (Nat.succ_ne_zero j)]
    simp only [Nat.add_sub_cancel]
    by_cases h : save_every ∣ j + 1
    · rw [if_pos h] at hsd
      have hmod : (j + 1) % save_every = 0 := Nat.mod_eq_zero_of_dvd h
      simp only [hmod, ne_eq, not_true_eq_false, if_false]
      omega
    · rw [if_neg h] at hsd
      have hmod : (j + 1) % save_every ≠ 0 := fun hc => h (Nat.dvd_of_mod_eq_zero hc)
      simp only [hmod, ne_eq, not_false_eq_true, if_true]
      omega

theorem plot_axes_count_witness :
    (1 ≤ 5 ∧ 1 ≤ 2) ∧ (plotSteps 5 2).length = numPlots 5 2 :=
  ⟨⟨by decide, by decide⟩, plot_axes_count 5 2 (by decide) (by decide)⟩

/-- C8: with an unbounded dataloader stream, the training loop of
`zip(range(steps), dataloader(...))` performs exactly `steps` iterations,
one per step index below `steps`, and then terminates; there is no early
stopping. -/
theorem training_loop_step_count (steps N B : ℕ) (permAt : ℕ → List ℕ)
    (hs : 1 ≤ steps) :
    (trainingRun steps (dataStream permAt N B)).length = steps
      ∧ (trainingRun steps (dataStream permAt N B)).map Prod.fst = List.range steps := by
  constructor
  · simp [trainingRun]
  · rw [trainingRun, List.map_map]
    have hcomp : (Prod.fst ∘ fun s => (s, dataStream permAt N B s)) = id := rfl
    rw [hcomp, List.map_id]

theorem training_loop_step_count_witness :
    1 ≤ 3
      ∧ ((trainingRun 3 (dataStream (fun _ => [0, 1]) 2 1)).length = 3
        ∧ (trainingRun 3 (dataStream (fun _ => [0, 1]) 2 1)).map Prod.fst = List.range 3) :=
  ⟨by decide, training_loop_step_count 3 2 1 (fun _ => [0, 1]) (by decide)⟩

/-! Distinctness of the consumed PRNG keys (claim C3) -/

theorem disjoint_of_keyTag {l₁ l₂ : List Key} {a b : ℕ}
    (h₁ : ∀ x ∈ l₁, keyTag x = a) (h₂ : ∀ x ∈ l₂, keyTag x = b) (hab : a ≠ b) :
    l₁.Disjoint l₂ := by
  intro x hx₁ hx₂
  exact hab ((h₁ x hx₁).symm.trans (h₂ x hx₂))

theorem keyTag_getData : ∀ x ∈ getDataConsumed, keyTag x = 0 := by decide

theorem keyTag_modelInit : ∀ x ∈ modelInitConsumed, keyTag x = 1 := by decide

theorem keyTag_loader (E : ℕ) : ∀ x ∈ loaderConsumed E, keyTag x = 2 := by
  intro x hx
  rw [loaderConsumed] at hx
  obtain ⟨e, _, rfl⟩ := List.mem_map.mp hx
  rfl

theorem keyTag_train (steps B : ℕ) : ∀ x ∈ trainConsumed steps B, keyTag x = 3 := by
  intro x hx
  rw [trainConsumed] at hx
  obtain ⟨s, _, hx'⟩ := List.mem_flatMap.mp hx
  rw [keySplit] at hx'
  obtain ⟨j, _, rfl⟩ := List.mem_map.mp hx'
  rfl

theorem nodup_getData : getDataConsumed.Nodup := by decide

theorem nodup_modelInit : modelInitConsumed.Nodup := by decide

theorem loaderKeyAt_injective : Function.Injective loaderKeyAt := by
  intro e₁ e₂ h
  have hlen := congrArg List.length h
  simpa [loaderKeyAt] using hlen

theorem nodup_loader (E : ℕ) : (loaderConsumed E).Nodup :=
  (List.nodup_range E).map loaderKeyAt_injective

theorem nodup_keySplit (k : Key) (n : ℕ) : (keySplit k n).Nodup := by
  rw [keySplit]
  apply (List.nodup_range n).map
  intro i j h
  have h' := List.append_cancel_left h
  simpa using h'

theorem nodup_train (steps B : ℕ) : (trainConsumed steps B).Nodup := by
  rw [trainConsumed, List.nodup_flatMap]
  constructor
  · intro s _
    exact nodup_keySplit _ B
  · have hstep : ∀ s s' : ℕ, s < s' →
        List.Disjoint (keySplit (trainKeyAt s) B) (keySplit (trainKeyAt s') B) := by
      intro s s' hlt x hx hx'
      rw [keySplit] at hx hx'
      obtain ⟨i, _, rfl⟩ := List.mem_map.mp hx
      obtain ⟨j, _, heq⟩ := List.mem_map.mp hx'
      have hlen := congrArg List.length heq
      simp [trainKeyAt] at hlen
      omega
    exact (List.pairwise_lt_range steps).imp (fun h => hstep _ _ h)

theorem nodup_nonSampleConsumed (steps E B : ℕ) :
    (nonSampleConsumed steps E B).Nodup := by
  rw [nonSampleConsumed]
  have d01 := disjoint_of_keyTag keyTag_getData keyTag_modelInit
    (show (0 : ℕ) ≠ 1 by decide)
  have d02 := disjoint_of_keyTag keyTag_getData (keyTag_loader E)
    (show (0 : ℕ) ≠ 2 by decide)
  have d03 := disjoint_of_keyTag keyTag_getData (keyTag_train steps B)
    (show (0 : ℕ) ≠ 3 by decide)
  have d12 := disjoint_of_keyTag keyTag_modelInit (keyTag_loader E)
    (show (1 : ℕ) ≠ 2 by decide)
  have d13 := disjoint_of_keyTag keyTag_modelInit (keyTag_train steps B)
    (show (1 : ℕ) ≠ 3 by decide)
  have d23 := disjoint_of_keyTag (keyTag_loader E) (keyTag_train steps B)
    (show (2 : ℕ) ≠ 3 by decide)
  have h01 : (getDataConsumed ++ modelInitConsumed).Nodup :=
    nodup_getData.append nodup_modelInit d01
  have h012 : (getDataConsumed ++ modelInitConsumed ++ loaderConsumed E).Nodup :=
    h01.append (nodup_loader E) (List.disjoint_append_left.mpr ⟨d02, d12⟩)
  exact h012.append (nodup_train steps B)
    (List.disjoint_append_left.mpr ⟨List.disjoint_append_left.mpr ⟨d03, d13⟩, d23⟩)

theorem sampleKey_not_mem_nonSample (steps E B : ℕ) :
    sampleKey ∉ nonSampleConsumed steps E B := by
  intro hx
  rw [nonSampleConsumed] at hx
  rcases List.mem_append.mp hx with h | h
  · rcases List.mem_append.mp h with h' | h'
    · rcases List.mem_append.mp h' with h'' | h''
      · exact absurd (keyTag_getData _ h'') (by decide)
      · exact absurd (keyTag_modelInit _ h'') (by decide)
    · exact absurd (keyTag_loader E _ h') (by decide)
  · exact absurd (keyTag_train steps B _ h) (by decide)

theorem count_sampleKey (steps save_every E B : ℕ) :
    (consumedKeys steps save_every E B).count sampleKey
      = (plotSteps steps save_every).length := by
  rw [consumedKeys, List.count_append]
  rw [List.count_eq_zero.mpr (sampleKey_not_mem_nonSample steps E B)]
  rw [sampleConsumed]
  have hconst : (plotSteps steps save_every).map (fun _ => sampleKey)
      = List.replicate (plotSteps steps save_every).length sampleKey := by
    rw [List.map_const']
  rw [hconst, List.count_replicate_self]
  omega

/-- C3 (amended): throughout a run, no key value other than `sample_key`
is ever consumed twice — the keys consumed by the data generator, the
layer initialisers, the dataloader's per-epoch permutations and the
per-step per-batch-slot noise draws are pairwise distinct — while
`sample_key` is consumed once per plotting step without ever being
re-split. -/
theorem non_sample_keys_never_reused (steps save_every E B : ℕ) :
    (nonSampleConsumed steps E B).Nodup
      ∧ (consumedKeys steps save_every E B).count sampleKey
          = (plotSteps steps save_every).length :=
  ⟨nodup_nonSampleConsumed steps E B, count_sampleKey steps save_every E B⟩

/-- C3 counterexample: in a run with `steps = 2`, `save_every = 1`
(one epoch, batch size one) the plotting branch runs at steps 0 and 1 and
passes the very same `sample_key` value to the decoder's prior draw both
times, so the run's key-consumption trace is not duplicate-free:
the claim that no key is ever consumed twice fails. -/
theorem sample_key_reused : ¬ (consumedKeys 2 1 1 1).Nodup := by decide

/-! The encoder (claim C7) -/

/-- C7: the encoder prepends the time scalar to each observation vector,
starts from the zero hidden state of dimension `hidden_size`, and applies
the gated recurrent cell in strictly reverse chronological order — the
last pair is consumed first and the first pair last — the final hidden
state being the summary, so the summary obeys the recursion
`summary (t::ts) (y::ys) = cell (t::y) (summary ts ys)` from
`summary [] [] = zero`. -/
theorem encoder_reverse_fold (m : LatentODEModel) (t : ℝ) (y : List ℝ)
    (ts : List ℝ) (ys : List (List ℝ)) :
    encHidden m [] [] = List.replicate m.hidden_size 0
      ∧ encHidden m (t :: ts) (y :: ys) = m.rnn_cell (t :: y) (encHidden m ts ys) := by
  constructor
  · rfl
  · rw [encHidden, encHidden, List.foldl_reverse, List.foldl_reverse]
    rw [show encInput (t :: ts) (y :: ys) = (t :: y) :: encInput ts ys from rfl]
    rw [List.foldr_cons]

/-! The loss (claims C4 and C5) -/

/-- C4: the per-trajectory loss equals `0.5 * sum((ys - pred_ys)^2)`, the
sum over every element of the trajectory, plus
`0.5 * sum(mean^2 + std^2 - 2*log(std) - 1)`, the sum over the latent
dimensions; both sums are summed, not averaged. -/
theorem loss_formula (ys pred : List (List ℝ)) (mean std : List ℝ) :
    lossFn ys pred mean std
      = 0.5 * ((List.zipWith (fun r p => List.zipWith (fun a b => (a - b) ^ 2) r p)
            ys pred).flatten).sum
        + 0.5 * (List.zipWith (fun mu s => mu ^ 2 + s ^ 2 - 2 * Real.log s - 1)
            mean std).sum := by
  rw [lossFn, lossRecon, lossVar, List.sum_flatten, List.map_zipWith]

/-- C5: the KL term of the loss evaluates to exactly 0 when the posterior
mean is the zero vector and the posterior standard deviation is 1
elementwise. -/
theorem kl_term_zero_at_standard_prior (n : ℕ) :
    lossVar (List.replicate n 0) (List.replicate n 1) = 0 := by
  rw [lossVar]
  have hz : List.zipWith (fun mu s => mu ^ 2 + s ^ 2 - 2 * Real.log s - 1)
      (List.replicate n (0 : ℝ)) (List.replicate n (1 : ℝ))
      = List.replicate n 0 := by
    induction n with
    | zero => rfl
    | succ k ih =>
      simp only [List.replicate_succ, List.zipWith_cons_cons, ih, List.cons.injEq]
      refine ⟨?_, trivial⟩
      rw [Real.log_one]
      norm_num
  rw [hz, List.sum_replicate]
  simp

/-! The latent projection and reparameterised sampling (claim C6) -/

theorem zipWith_mul_replicate_zero (n : ℕ) (l : List ℝ) :
    List.zipWith (fun a b => a * b) (List.replicate n 0) l
      = List.replicate (min n l.length) 0 := by
  induction n generalizing l with
  | zero => simp
  | succ k ih =>
    cases l with
    | nil => simp
    | cons x xs =>
      simp only [List.replicate_succ, List.zipWith_cons_cons, ih, List.length_cons,
        Nat.succ_min_succ, zero_mul]

theorem zipWith_add_replicate_zero (l : List ℝ) (n : ℕ) (h : l.length ≤ n) :
    List.zipWith (fun a b => a + b) l (List.replicate n 0) = l := by
  induction l generalizing n with
  | nil => simp
  | cons x xs ih =>
    cases n with
    | zero => simp at h
    | succ k =>
      simp only [List.replicate_succ, List.zipWith_cons_cons, add_zero, List.cons.injEq]
      exact ⟨trivial, ih k (by simpa using h)⟩

/-- C6: the latent sample is computed as `mean + noise * exp(logstd)`
where `mean` is the first `latent_size` components and `logstd` the last
`latent_size` components of the `2*latent_size` linear projection of the
encoder summary; with the standard-normal draw fixed at zero the sample
equals the posterior mean exactly, and every component of the returned
standard deviation is strictly positive. -/
theorem latent_reparameterisation (m : LatentODEModel) (ts : List ℝ)
    (ys : List (List ℝ))
    (hctx : (latentContext m ts ys).length = 2 * m.latent_size) :
    (∀ key : Key, latentSample m ts ys key
        = List.zipWith (fun a b => a + b)
            ((latentContext m ts ys).take m.latent_size)
            (List.zipWith (fun a b => a * b) (m.normalDraw key m.latent_size)
              (((latentContext m ts ys).drop m.latent_size).map Real.exp)))
      ∧ latentFromNoise m ts ys (List.replicate m.latent_size 0) = latentMean m ts ys
      ∧ (∀ x ∈ latentStd m ts ys, 0 < x) := by
  refine ⟨fun key => rfl, ?_, ?_⟩
  · rw [latentFromNoise, zipWith_mul_replicate_zero]
    have hstd : (latentStd m ts ys).length = m.latent_size := by
      rw [latentStd, List.length_map, latentLogstd, List.length_drop, hctx]
      omega
    rw [hstd, Nat.min_self]
    apply zipWith_add_replicate_zero
    rw [latentMean, List.length_take, hctx]
    omega
  · intro x hx
    rw [latentStd] at hx
    obtain ⟨a, _, rfl⟩ := List.mem_map.mp hx
    exact Real.exp_pos a

theorem latent_reparameterisation_witness :
    (latentContext toyModel [] []).length = 2 * toyModel.latent_size
      ∧ ((∀ key : Key, latentSample toyModel [] [] key
          = List.zipWith (fun a b => a + b)
              ((latentContext toyModel [] []).take toyModel.latent_size)
              (List.zipWith (fun a b => a * b) (toyModel.normalDraw key toyModel.latent_size)
                (((latentContext toyModel [] []).drop toyModel.latent_size).map Real.exp)))
        ∧ latentFromNoise toyModel [] [] (List.replicate toyModel.latent_size 0)
            = latentMean toyModel [] []
        ∧ (∀ x ∈ latentStd toyModel [] [], 0 < x)) :=
  ⟨rfl, latent_reparameterisation toyModel [] [] rfl⟩

/-! The decoder (claim C1) -/

/-- C1: for any time grid and any latent code, the decoder path `_sample`
returns exactly one output vector per time in the grid, each of dimension
`data_size` (the row count of the `hidden_to_data` projection), for any
model configuration.  This relies on the spec-modelled solver contract:
one solved state per requested output time. -/
theorem decoder_output_shape (m : LatentODEModel) (data_size : ℕ)
    (ts latent : List ℝ)
    (hW : m.hidden_to_data.weight.length = data_size)
    (hb : m.hidden_to_data.bias.length = data_size)
    (hlen : 2 ≤ ts.length) (hsorted : ts.Sorted (fun a b => a < b)) :
    (sampleFn m ts latent).length = ts.length
      ∧ ∀ v ∈ sampleFn m ts latent, v.length = data_size := by
  constructor
  · rw [sampleFn, odeSolve, List.length_map, List.length_map]
  · intro v hv
    rw [sampleFn] at hv
    obtain ⟨w, _, rfl⟩ := List.mem_map.mp hv
    rw [linApply, List.length_zipWith, hW, hb, Nat.min_self]

theorem decoder_output_shape_witness :
    (toyModel.hidden_to_data.weight.length = 1
        ∧ toyModel.hidden_to_data.bias.length = 1
        ∧ 2 ≤ ([0, 1] : List ℝ).length
        ∧ ([0, 1] : List ℝ).Sorted (fun a b => a < b))
      ∧ ((sampleFn toyModel [0, 1] [0]).length = ([0, 1] : List ℝ).length
        ∧ ∀ v ∈ sampleFn toyModel [0, 1] [0], v.length = 1) :=
  ⟨⟨rfl, rfl, by norm_num, by norm_num [List.sorted_cons]⟩,
    decoder_output_shape toyModel 1 [0, 1] [0] rfl rfl (by norm_num)
      (by norm_num [List.sorted_cons])⟩

/-! The vectorized minibatch loss (claim C2) -/

/-- C2 (amended): the scalar minibatch loss is invariant under any
permutation applied jointly to the batch elements and their positionally
assigned PRNG keys: any two lists of (element, key) pairs that are
permutations of each other yield the same averaged loss.  (Permuting the
elements alone while the keys stay positional — which is what the code's
`split(key_i, batch_size)` pairing produces — need not preserve the
scalar; see the counterexample.) -/
theorem batch_loss_joint_permutation_invariant (m : LatentODEModel)
    (l l' : List ((List ℝ × List (List ℝ)) × Key)) (h : l.Perm l') :
    pairedLoss m l = pairedLoss m l' := by
  have hp : (pairLosses m l).Perm (pairLosses m l') := h.map _
  rw [pairedLoss, pairedLoss, hp.sum_eq, hp.length_eq]

theorem batch_loss_joint_permutation_invariant_witness :
    (([(([0, 1], [[0], [0]]), [0]), (([0, 1], [[1], [1]]), [1])]
        : List ((List ℝ × List (List ℝ)) × Key)).Perm
        [(([0, 1], [[1], [1]]), [1]), (([0, 1], [[0], [0]]), [0])])
      ∧ pairedLoss toyModel [(([0, 1], [[0], [0]]), [0]), (([0, 1], [[1], [1]]), [1])]
          = pairedLoss toyModel [(([0, 1], [[1], [1]]), [1]), (([0, 1], [[0], [0]]), [0])] :=
  ⟨List.Perm.swap _ _ _,
    batch_loss_joint_permutation_invariant toyModel _ _ (List.Perm.swap _ _ _)⟩

/-- C2 counterexample: with the per-slot keys derived positionally from
`split(key_i, batch_size)`, swapping the two batch elements (a permutation
of the minibatch) changes the scalar loss from 1 to 2 in the concrete
instance below — not a floating-point discrepancy — so the loss is not
invariant under permuting the batch alone. -/
theorem batch_loss_element_permutation_ce :
    List.Perm
        (List.zip ([[0, 1], [0, 1]] : List (List ℝ))
          ([[[0], [0]], [[1], [1]]] : List (List (List ℝ))))
        (List.zip ([[0, 1], [0, 1]] : List (List ℝ))
          ([[[1], [1]], [[0], [0]]] : List (List (List ℝ))))
      ∧ batchLoss toyModel [[0, 1], [0, 1]] [[[0], [0]], [[1], [1]]] []
          ≠ batchLoss toyModel [[0, 1], [0, 1]] [[[1], [1]], [[0], [0]]] [] := by
  constructor
  · exact List.Perm.swap _ _ _
  · have hks : keySplit [] 2 = [[0], [1]] := by decide
    have h1 : batchLoss toyModel [[0, 1], [0, 1]] [[[0], [0]], [[1], [1]]] [] = 1 := by
      simp [batchLoss, pairedLoss, pairLosses, hks, trainFn, lossFn, lossRecon, lossVar,
        sampleFn, odeSolve, latentSample, latentFromNoise, latentMean, latentStd,
        latentLogstd, latentContext, encHidden, encInput, linApply, dot, toyModel,
        Real.exp_zero, Real.log_one]
      norm_num
    have h2 : batchLoss toyModel [[0, 1], [0, 1]] [[[1], [1]], [[0], [0]]] [] = 2 := by
      simp [batchLoss, pairedLoss, pairLosses, hks, trainFn, lossFn, lossRecon, lossVar,
        sampleFn, odeSolve, latentSample, latentFromNoise, latentMean, latentStd,
        latentLogstd, latentContext, encHidden, encInput, linApply, dot, toyModel,
        Real.exp_zero, Real.log_one]
      norm_num
    rw [h1, h2]
    norm_num

end LatentOde
